import Mathlib

/-!
Verification of the strategy-based admission-queue remedy of the Lunar proxy.

Part 1 models the admission-queue engine (`lunar/engine/utils/queue`,
`DelayedPriorityQueue`).  The queue package itself is not part of the
repository slice (only its caller, `strategy_based_queue_plugin.go`, is), so
the engine is modelled from the specification, section 4.3 "Admission Queue —
core protocol" and section 5 "Concurrency & resource model": lazy window
rollover computed from elapsed time, promotion of the highest-priority
(lowest number, earliest arrival) non-expired waiters up to the window quota
on every rollover, and a scheduled wake-up for every waiter no later than
`min(next window boundary, its own TTL deadline)`.  Time is modelled as
abstract `Nat` ticks; the engine is a deterministic event processor whose
emitted decisions record the request, its outcome and the time at which the
waiter is woken.

Part 2 models the plugin wrapper `strategy_based_queue_plugin.go` directly
from the Go source: the registry of queues keyed by `(remedyName, strategy)`,
priority extraction from headers, the outcome metric, and the action returned
to the pipeline.
-/

namespace AdmissionQueue

/-- Modelled from the spec: `queue.Strategy` — a window quota and a window
size (a duration, in abstract ticks).  The queue package is not in the
repository slice. -/
structure Strategy where
  windowQuota : Nat
  windowSize : Nat
deriving DecidableEq, Repr

/-- Modelled from the spec: `queue.Request` — identity, priority (lower
number = higher priority) and arrival time. -/
structure Request where
  id : Nat
  priority : Int
  enqueuedAt : Nat
deriving DecidableEq, Repr

/-- A request sitting in the wait structure, together with the TTL it was
enqueued with. -/
structure WaitEntry where
  req : Request
  ttl : Nat
deriving DecidableEq, Repr

/-- The absolute time at which the entry's TTL elapses. -/
def WaitEntry.deadline (e : WaitEntry) : Nat := e.req.enqueuedAt + e.ttl

/-- A decision delivered to a blocked caller: the request, its TTL, whether
it was admitted (`true`) or expired (`false`), and the time at which the
caller is woken. -/
structure Decision where
  req : Request
  ttl : Nat
  admitted : Bool
  wakeAt : Nat
deriving DecidableEq, Repr

/-- Modelled from the spec: the per-key state of a `DelayedPriorityQueue` —
the index of the active window, the admitted-count of that window, and the
wait structure ordered by (priority ascending, arrival ascending). -/
structure QueueState where
  windowIndex : Nat
  admittedCount : Nat
  waiting : List WaitEntry
deriving DecidableEq, Repr

/-- An `Enqueue` call: arrival time, request identity, priority, TTL. -/
structure Arrival where
  t : Nat
  id : Nat
  priority : Int
  ttl : Nat
deriving DecidableEq, Repr

/-- Strict (priority, arrival-time) lexicographic order on requests; used to
keep the wait structure sorted with FIFO stability inside a priority class. -/
def reqLt (a b : Request) : Prop :=
  a.priority < b.priority ∨ (a.priority = b.priority ∧ a.enqueuedAt < b.enqueuedAt)

/-- Reflexive (priority, arrival-time) lexicographic order on requests. -/
def reqLE (a b : Request) : Prop :=
  a.priority < b.priority ∨ (a.priority = b.priority ∧ a.enqueuedAt ≤ b.enqueuedAt)

instance (a b : Request) : Decidable (reqLt a b) := by
  unfold reqLt; exact inferInstance

instance (a b : Request) : Decidable (reqLE a b) := by
  unfold reqLE; exact inferInstance

/-- Reflexive order on wait entries, by their requests. -/
def entryLE (a b : WaitEntry) : Prop := reqLE a.req b.req

instance (a b : WaitEntry) : Decidable (entryLE a b) := by
  unfold entryLE; exact inferInstance

/-- Ordered insertion into the wait structure: the new entry goes before the
first strictly greater entry, hence after all entries with an equal
(priority, arrival) key — FIFO within a priority class. -/
def insertEntry (e : WaitEntry) : List WaitEntry → List WaitEntry
  | [] => [e]
  | x :: xs => if reqLt e.req x.req then e :: x :: xs else x :: insertEntry e xs

/-- The result of one internal engine step: the new state and the decisions
delivered to woken callers during the step. -/
structure StepResult where
  state : QueueState
  decisions : List Decision
deriving DecidableEq, Repr

/-- Modelled from the spec, section 5: every waiter has a wake-up scheduled at
its own TTL deadline, so by time `t` every entry whose deadline is `≤ t` has
been removed from the wait structure and woken with `false` at that deadline. -/
def expireUpTo (t : Nat) (s : QueueState) : StepResult :=
  { state := { s with waiting := s.waiting.filter (fun e => decide (t < e.deadline)) }
    decisions := (s.waiting.filter (fun e => decide (e.deadline ≤ t))).map
      (fun e => { req := e.req, ttl := e.ttl, admitted := false, wakeAt := e.deadline }) }

/-- The result of a promotion pass: the remaining wait structure, the
decisions delivered, and the admitted-count after the pass. -/
structure PromoteResult where
  waiting : List WaitEntry
  decisions : List Decision
  admittedCount : Nat
deriving DecidableEq, Repr

/-- Modelled from the spec, section 4.3 step 4: on a rollover at time `now`,
repeatedly pop the head of the wait structure while the admitted-count is
below the quota; a popped entry already past its TTL is discarded (woken with
`false`), otherwise it is admitted (woken with `true`, count incremented). -/
def promote (now quota : Nat) : Nat → List WaitEntry → PromoteResult
  | c, [] => ⟨[], [], c⟩
  | c, e :: rest =>
    if quota ≤ c then ⟨e :: rest, [], c⟩
    else if e.deadline ≤ now then
      let r := promote now quota c rest
      ⟨r.waiting, { req := e.req, ttl := e.ttl, admitted := false, wakeAt := now } :: r.decisions,
        r.admittedCount⟩
    else
      let r := promote now quota (c + 1) rest
      ⟨r.waiting, { req := e.req, ttl := e.ttl, admitted := true, wakeAt := now } :: r.decisions,
        r.admittedCount⟩

/-- Modelled from the spec, sections 4.3 step 1/5 and 5: process the next `n`
window boundaries in time order.  At each boundary, waiters whose TTL elapsed
before (or exactly at) the boundary are expired first, then the window rolls
over: the admitted-count resets to 0 and a promotion pass runs with the fresh
quota. -/
def processBoundaries (strat : Strategy) : Nat → QueueState → StepResult
  | 0, s => ⟨s, []⟩
  | n + 1, s =>
    let b := (s.windowIndex + 1) * strat.windowSize
    let ex := expireUpTo b s
    let pr := promote b strat.windowQuota 0 ex.state.waiting
    let rest := processBoundaries strat n ⟨s.windowIndex + 1, pr.admittedCount, pr.waiting⟩
    ⟨rest.state, ex.decisions ++ pr.decisions ++ rest.decisions⟩

/-- Modelled from the spec: advance the queue to time `t`.  The target window
index is recomputed directly from elapsed time (`t / windowSize`), all
intervening boundaries are processed in order, and finally the waiters whose
TTL deadline is `≤ t` are expired. -/
def advanceTo (strat : Strategy) (s : QueueState) (t : Nat) : StepResult :=
  let n := t / strat.windowSize - s.windowIndex
  let pb := processBoundaries strat n s
  let ex := expireUpTo t pb.state
  ⟨ex.state, pb.decisions ++ ex.decisions⟩

/-- Modelled from the spec, section 4.3 steps 1-3: an `Enqueue` call at time
`a.t`.  The queue first catches up to `a.t` (lazy rollover and TTL wake-ups);
if the admitted-count is below the quota the request is admitted immediately
(woken `true` at `a.t`), otherwise it is inserted into the wait structure in
(priority, arrival) order. -/
def enqueue (strat : Strategy) (s : QueueState) (a : Arrival) : StepResult :=
  let adv := advanceTo strat s a.t
  let s1 := adv.state
  if s1.admittedCount < strat.windowQuota then
    ⟨{ s1 with admittedCount := s1.admittedCount + 1 },
      adv.decisions ++
        [{ req := ⟨a.id, a.priority, a.t⟩, ttl := a.ttl, admitted := true, wakeAt := a.t }]⟩
  else
    ⟨{ s1 with waiting := insertEntry ⟨⟨a.id, a.priority, a.t⟩, a.ttl⟩ s1.waiting },
      adv.decisions⟩

/-- The initial state of a freshly created queue. -/
def initState : QueueState := ⟨0, 0, []⟩

/-- Process a list of `Enqueue` calls in order, accumulating all decisions. -/
def runFrom (strat : Strategy) (s : QueueState) : List Arrival → StepResult
  | [] => ⟨s, []⟩
  | a :: rest =>
    let r1 := enqueue strat s a
    let r2 := runFrom strat r1.state rest
    ⟨r2.state, r1.decisions ++ r2.decisions⟩

/-- A complete run of the engine: process all arrivals from the initial
state, then advance to the horizon time `h` (delivering every TTL wake-up
scheduled before `h`). -/
def runEvents (strat : Strategy) (arrivals : List Arrival) (h : Nat) : StepResult :=
  let r := runFrom strat initState arrivals
  let fin := advanceTo strat r.state h
  ⟨fin.state, r.decisions ++ fin.decisions⟩

/-! ### Quota-bound invariant -/

theorem promote_count_le (now quota : Nat) :
    ∀ (w : List WaitEntry) (c : Nat), c ≤ quota →
      (promote now quota c w).admittedCount ≤ quota := by
  intro w
  induction w with
  | nil => intro c hc; simpa [promote] using hc
  | cons e rest ih =>
    intro c hc
    by_cases hq : quota ≤ c
    · simpa [promote, hq] using hc
    · by_cases hd : e.deadline ≤ now
      · simpa [promote, hq, hd] using ih c hc
      · have : c + 1 ≤ quota := Nat.succ_le_of_lt (Nat.lt_of_not_le hq)
        simpa [promote, hq, hd] using ih (c + 1) this

theorem expireUpTo_count (t : Nat) (s : QueueState) :
    (expireUpTo t s).state.admittedCount = s.admittedCount := rfl

theorem processBoundaries_count_le (strat : Strategy) :
    ∀ (n : Nat) (s : QueueState), s.admittedCount ≤ strat.windowQuota →
      (processBoundaries strat n s).state.admittedCount ≤ strat.windowQuota := by
  intro n
  induction n with
  | zero => intro s hs; simpa [processBoundaries] using hs
  | succ n ih =>
    intro s _
    simp only [processBoundaries]
    exact ih _ (promote_count_le _ _ _ 0 (Nat.zero_le _))

theorem advanceTo_count_le (strat : Strategy) (s : QueueState) (t : Nat)
    (hs : s.admittedCount ≤ strat.windowQuota) :
    (advanceTo strat s t).state.admittedCount ≤ strat.windowQuota := by
  simp only [advanceTo, expireUpTo_count]
  exact processBoundaries_count_le strat _ s hs

theorem enqueue_count_le (strat : Strategy) (s : QueueState) (a : Arrival)
    (hs : s.admittedCount ≤ strat.windowQuota) :
    (enqueue strat s a).state.admittedCount ≤ strat.windowQuota := by
  have h1 := advanceTo_count_le strat s a.t hs
  by_cases hlt : (advanceTo strat s a.t).state.admittedCount < strat.windowQuota
  · simpa [enqueue, hlt] using Nat.succ_le_of_lt hlt
  · simpa [enqueue, hlt] using h1

theorem runFrom_count_le (strat : Strategy) :
    ∀ (arrivals : List Arrival) (s : QueueState),
      s.admittedCount ≤ strat.windowQuota →
      (runFrom strat s arrivals).state.admittedCount ≤ strat.windowQuota := by
  intro arrivals
  induction arrivals with
  | nil => intro s hs; simpa [runFrom] using hs
  | cons a rest ih =>
    intro s hs
    simp only [runFrom]
    exact ih _ (enqueue_count_le strat s a hs)

/-- C1: for every strategy, every sequence of `Enqueue` calls (including all
window rollovers and promotions they trigger) and every horizon, the
admitted-count recorded for the active window never exceeds the strategy's
quota. -/
theorem admittedCount_le_quota (strat : Strategy) (arrivals : List Arrival) (h : Nat) :
    (runEvents strat arrivals h).state.admittedCount ≤ strat.windowQuota := by
  simp only [runEvents]
  exact advanceTo_count_le strat _ h
    (runFrom_count_le strat arrivals initState (Nat.zero_le _))

/-! ### Conservation: every enqueued request ends up waiting or decided -/

/-- The wait entry that `enqueue` builds for an arrival. -/
def entryOf (a : Arrival) : WaitEntry := ⟨⟨a.id, a.priority, a.t⟩, a.ttl⟩

/-- A step result covers an entry when the entry is still waiting or a
decision carrying its request and TTL was delivered. -/
def covers (r : StepResult) (e : WaitEntry) : Prop :=
  e ∈ r.state.waiting ∨ ∃ d ∈ r.decisions, d.req = e.req ∧ d.ttl = e.ttl

theorem mem_insertEntry {x e : WaitEntry} :
    ∀ {l : List WaitEntry}, x ∈ insertEntry e l ↔ x = e ∨ x ∈ l := by
  intro l
  induction l with
  | nil => simp [insertEntry]
  | cons y ys ih =>
    by_cases hlt : reqLt e.req y.req
    · simp only [insertEntry, if_pos hlt, List.mem_cons]
    · simp only [insertEntry, if_neg hlt, List.mem_cons, ih]
      tauto

theorem expireUpTo_conserve (t : Nat) (s : QueueState) {e : WaitEntry}
    (he : e ∈ s.waiting) : covers (expireUpTo t s) e := by
  by_cases hd : e.deadline ≤ t
  · right
    refine ⟨⟨e.req, e.ttl, false, e.deadline⟩, ?_, rfl, rfl⟩
    simp only [expireUpTo, List.mem_map]
    exact ⟨e, List.mem_filter.mpr ⟨he, by simpa using hd⟩, rfl⟩
  · left
    simp only [expireUpTo]
    exact List.mem_filter.mpr ⟨he, by simpa using Nat.lt_of_not_le hd⟩

theorem promote_conserve (now quota : Nat) :
    ∀ (w : List WaitEntry) (c : Nat) {e : WaitEntry}, e ∈ w →
      e ∈ (promote now quota c w).waiting ∨
        ∃ d ∈ (promote now quota c w).decisions, d.req = e.req ∧ d.ttl = e.ttl := by
  intro w
  induction w with
  | nil => intro c e he; cases he
  | cons x rest ih =>
    intro c e he
    by_cases hq : quota ≤ c
    · left; simpa [promote, hq] using he
    · rcases List.mem_cons.mp he with rfl | hrest
      · by_cases hd : e.deadline ≤ now
        · right
          exact ⟨⟨e.req, e.ttl, false, now⟩, by simp [promote, hq, hd], rfl, rfl⟩
        · right
          exact ⟨⟨e.req, e.ttl, true, now⟩, by simp [promote, hq, hd], rfl, rfl⟩
      · by_cases hd : x.deadline ≤ now
        · rcases ih c hrest with h1 | ⟨d, hd1, hd2⟩
          · left; simpa [promote, hq, hd] using h1
          · right; exact ⟨d, by simp [promote, hq, hd, hd1], hd2⟩
        · rcases ih (c + 1) hrest with h1 | ⟨d, hd1, hd2⟩
          · left; simpa [promote, hq, hd] using h1
          · right; exact ⟨d, by simp [promote, hq, hd, hd1], hd2⟩

theorem processBoundaries_conserve (strat : Strategy) :
    ∀ (n : Nat) (s : QueueState) {e : WaitEntry}, e ∈ s.waiting →
      covers (processBoundaries strat n s) e := by
  intro n
  induction n with
  | zero => intro s e he; left; simpa [processBoundaries] using he
  | succ n ih =>
    intro s e he
    simp only [processBoundaries]
    unfold covers
    rcases expireUpTo_conserve ((s.windowIndex + 1) * strat.windowSize) s he with
      h1 | ⟨d, hd1, hd2⟩
    · rcases promote_conserve ((s.windowIndex + 1) * strat.windowSize) strat.windowQuota
        _ 0 h1 with h2 | ⟨d, hd1, hd2⟩
      · rcases ih ⟨s.windowIndex + 1,
          (promote ((s.windowIndex + 1) * strat.windowSize) strat.windowQuota 0
            (expireUpTo ((s.windowIndex + 1) * strat.windowSize) s).state.waiting).admittedCount,
          (promote ((s.windowIndex + 1) * strat.windowSize) strat.windowQuota 0
            (expireUpTo ((s.windowIndex + 1) * strat.windowSize) s).state.waiting).waiting⟩
          h2 with h3 | ⟨d, hd1, hd2⟩
        · exact Or.inl h3
        · exact Or.inr ⟨d, List.mem_append_right _ hd1, hd2⟩
      · exact Or.inr ⟨d, List.mem_append_left _ (List.mem_append_right _ hd1), hd2⟩
    · exact Or.inr ⟨d, List.mem_append_left _ (List.mem_append_left _ hd1), hd2⟩

theorem advanceTo_conserve (strat : Strategy) (s : QueueState) (t : Nat) {e : WaitEntry}
    (he : e ∈ s.waiting) : covers (advanceTo strat s t) e := by
  rcases processBoundaries_conserve strat (t / strat.windowSize - s.windowIndex) s he with
    h1 | ⟨d, hd1, hd2⟩
  · rcases expireUpTo_conserve t _ h1 with h2 | ⟨d, hd1, hd2⟩
    · left; simpa [advanceTo] using h2
    · right
      exact ⟨d, by simp only [advanceTo, List.mem_append]; exact Or.inr hd1, hd2⟩
  · right
    exact ⟨d, by simp only [advanceTo, List.mem_append]; exact Or.inl hd1, hd2⟩

theorem enqueue_conserve (strat : Strategy) (s : QueueState) (a : Arrival) {e : WaitEntry}
    (he : e ∈ s.waiting) : covers (enqueue strat s a) e := by
  rcases advanceTo_conserve strat s a.t he with h1 | ⟨d, hd1, hd2⟩
  · by_cases hlt : (advanceTo strat s a.t).state.admittedCount < strat.windowQuota
    · left; simpa [enqueue, hlt] using h1
    · left
      simp only [enqueue, if_neg hlt]
      exact mem_insertEntry.mpr (Or.inr h1)
  · right
    by_cases hlt : (advanceTo strat s a.t).state.admittedCount < strat.windowQuota
    · exact ⟨d, by simp only [enqueue, if_pos hlt, List.mem_append]; exact Or.inl hd1, hd2⟩
    · exact ⟨d, by simpa [enqueue, hlt] using hd1, hd2⟩

theorem enqueue_covers_self (strat : Strategy) (s : QueueState) (a : Arrival) :
    covers (enqueue strat s a) (entryOf a) := by
  by_cases hlt : (advanceTo strat s a.t).state.admittedCount < strat.windowQuota
  · right
    refine ⟨⟨⟨a.id, a.priority, a.t⟩, a.ttl, true, a.t⟩, ?_, rfl, rfl⟩
    simp [enqueue, hlt]
  · left
    simp only [enqueue, if_neg hlt]
    exact mem_insertEntry.mpr (Or.inl rfl)

theorem runFrom_conserve (strat : Strategy) :
    ∀ (arrivals : List Arrival) (s : QueueState) {e : WaitEntry}, e ∈ s.waiting →
      covers (runFrom strat s arrivals) e := by
  intro arrivals
  induction arrivals with
  | nil => intro s e he; left; simpa [runFrom] using he
  | cons a rest ih =>
    intro s e he
    rcases enqueue_conserve strat s a he with h1 | ⟨d, hd1, hd2⟩
    · rcases ih (enqueue strat s a).state h1 with h2 | ⟨d, hd1, hd2⟩
      · left; simpa [runFrom] using h2
      · right
        exact ⟨d, by simp only [runFrom, List.mem_append]; exact Or.inr hd1, hd2⟩
    · right
      exact ⟨d, by simp only [runFrom, List.mem_append]; exact Or.inl hd1, hd2⟩

theorem runFrom_covers_mem (strat : Strategy) :
    ∀ (arrivals : List Arrival) (s : QueueState) {a : Arrival}, a ∈ arrivals →
      covers (runFrom strat s arrivals) (entryOf a) := by
  intro arrivals
  induction arrivals with
  | nil => intro s a ha; cases ha
  | cons b rest ih =>
    intro s a ha
    rcases List.mem_cons.mp ha with rfl | hrest
    · rcases enqueue_covers_self strat s a with h1 | ⟨d, hd1, hd2⟩
      · rcases runFrom_conserve strat rest (enqueue strat s a).state h1 with
          h2 | ⟨d, hd1, hd2⟩
        · left; simpa [runFrom] using h2
        · right
          exact ⟨d, by simp only [runFrom, List.mem_append]; exact Or.inr hd1, hd2⟩
      · right
        exact ⟨d, by simp only [runFrom, List.mem_append]; exact Or.inl hd1, hd2⟩
    · rcases ih (enqueue strat s b).state hrest with h2 | ⟨d, hd1, hd2⟩
      · left; simpa [runFrom] using h2
      · right
        exact ⟨d, by simp only [runFrom, List.mem_append]; exact Or.inr hd1, hd2⟩

theorem runEvents_covers_mem (strat : Strategy) (arrivals : List Arrival) (h : Nat)
    {a : Arrival} (ha : a ∈ arrivals) :
    covers (runEvents strat arrivals h) (entryOf a) := by
  rcases runFrom_covers_mem strat arrivals initState ha with h1 | ⟨d, hd1, hd2⟩
  · rcases advanceTo_conserve strat _ h h1 with h2 | ⟨d, hd1, hd2⟩
    · left; simpa [runEvents] using h2
    · right
      exact ⟨d, by simp only [runEvents, List.mem_append]; exact Or.inr hd1, hd2⟩
  · right
    exact ⟨d, by simp only [runEvents, List.mem_append]; exact Or.inl hd1, hd2⟩

/-! ### TTL timing: expiries are delivered at the deadline -/

/-- A decision is timely when, if it is a rejection, it is delivered exactly
at the request's TTL deadline. -/
def timely (d : Decision) : Prop :=
  d.admitted = false → d.wakeAt = d.req.enqueuedAt + d.ttl

theorem expireUpTo_decisions_timely (t : Nat) (s : QueueState) :
    ∀ d ∈ (expireUpTo t s).decisions, timely d := by
  intro d hd
  simp only [expireUpTo, List.mem_map] at hd
  obtain ⟨e, _, rfl⟩ := hd
  intro _
  rfl

theorem expireUpTo_waiting_gt (t : Nat) (s : QueueState) :
    ∀ e ∈ (expireUpTo t s).state.waiting, t < e.deadline := by
  intro e he
  simp only [expireUpTo] at he
  simpa using (List.mem_filter.mp he).2

theorem promote_true_of_gt (now quota : Nat) :
    ∀ (w : List WaitEntry) (c : Nat), (∀ e ∈ w, now < e.deadline) →
      ∀ d ∈ (promote now quota c w).decisions, d.admitted = true := by
  intro w
  induction w with
  | nil => intro c _ d hd; simp [promote] at hd
  | cons x rest ih =>
    intro c hw d hd
    by_cases hq : quota ≤ c
    · simp [promote, hq] at hd
    · have hx : ¬ x.deadline ≤ now := Nat.not_le_of_lt (hw x (List.mem_cons_self x rest))
      simp only [promote, if_neg hq, if_neg hx, List.mem_cons] at hd
      rcases hd with rfl | hd
      · rfl
      · exact ih (c + 1) (fun e he => hw e (List.mem_cons_of_mem x he)) d hd

theorem processBoundaries_decisions_timely (strat : Strategy) :
    ∀ (n : Nat) (s : QueueState),
      ∀ d ∈ (processBoundaries strat n s).decisions, timely d := by
  intro n
  induction n with
  | zero => intro s d hd; simp [processBoundaries] at hd
  | succ n ih =>
    intro s d hd
    simp only [processBoundaries, List.mem_append] at hd
    rcases hd with (hd | hd) | hd
    · exact expireUpTo_decisions_timely _ s d hd
    · intro hfalse
      have := promote_true_of_gt ((s.windowIndex + 1) * strat.windowSize) strat.windowQuota
        _ 0 (expireUpTo_waiting_gt _ s) d hd
      rw [hfalse] at this
      cases this
    · exact ih _ d hd

theorem advanceTo_decisions_timely (strat : Strategy) (s : QueueState) (t : Nat) :
    ∀ d ∈ (advanceTo strat s t).decisions, timely d := by
  intro d hd
  simp only [advanceTo, List.mem_append] at hd
  rcases hd with hd | hd
  · exact processBoundaries_decisions_timely strat _ s d hd
  · exact expireUpTo_decisions_timely t _ d hd

theorem enqueue_decisions_timely (strat : Strategy) (s : QueueState) (a : Arrival) :
    ∀ d ∈ (enqueue strat s a).decisions, timely d := by
  intro d hd
  by_cases hlt : (advanceTo strat s a.t).state.admittedCount < strat.windowQuota
  · simp only [enqueue, if_pos hlt, List.mem_append, List.mem_singleton] at hd
    rcases hd with hd | rfl
    · exact advanceTo_decisions_timely strat s a.t d hd
    · intro hfalse; cases hfalse
  · simp only [enqueue, if_neg hlt] at hd
    exact advanceTo_decisions_timely strat s a.t d hd

theorem runFrom_decisions_timely (strat : Strategy) :
    ∀ (arrivals : List Arrival) (s : QueueState),
      ∀ d ∈ (runFrom strat s arrivals).decisions, timely d := by
  intro arrivals
  induction arrivals with
  | nil => intro s d hd; simp [runFrom] at hd
  | cons a rest ih =>
    intro s d hd
    simp only [runFrom, List.mem_append] at hd
    rcases hd with hd | hd
    · exact enqueue_decisions_timely strat s a d hd
    · exact ih _ d hd

theorem runEvents_decisions_timely (strat : Strategy) (arrivals : List Arrival) (h : Nat) :
    ∀ d ∈ (runEvents strat arrivals h).decisions, timely d := by
  intro d hd
  simp only [runEvents, List.mem_append] at hd
  rcases hd with hd | hd
  · exact runFrom_decisions_timely strat arrivals initState d hd
  · exact advanceTo_decisions_timely strat _ h d hd

theorem advanceTo_waiting_gt (strat : Strategy) (s : QueueState) (t : Nat) :
    ∀ e ∈ (advanceTo strat s t).state.waiting, t < e.deadline := by
  intro e he
  exact expireUpTo_waiting_gt t _ e he

theorem runEvents_waiting_gt (strat : Strategy) (arrivals : List Arrival) (h : Nat) :
    ∀ e ∈ (runEvents strat arrivals h).state.waiting, h < e.deadline := by
  intro e he
  exact advanceTo_waiting_gt strat _ h e he

/-- C2: a request whose TTL deadline lies within the horizon and that is
never admitted (never promoted into a window's quota, never admitted on
arrival) is delivered a `false` decision no later than `ttl` after its
enqueue time. -/
theorem ttl_bound (strat : Strategy) (arrivals : List Arrival) (h : Nat)
    (a : Arrival) (ha : a ∈ arrivals) (hh : a.t + a.ttl ≤ h)
    (hnp : ∀ d ∈ (runEvents strat arrivals h).decisions,
      d.admitted = true → d.req.id ≠ a.id) :
    ∃ d ∈ (runEvents strat arrivals h).decisions,
      d.req.id = a.id ∧ d.admitted = false ∧ d.wakeAt ≤ a.t + a.ttl := by
  rcases runEvents_covers_mem strat arrivals h ha with hw | ⟨d, hd1, hd2, hd3⟩
  · exfalso
    have := runEvents_waiting_gt strat arrivals h _ hw
    simp only [WaitEntry.deadline, entryOf] at this
    omega
  · have hid : d.req.id = a.id := by rw [hd2]; rfl
    cases hadm : d.admitted with
    | true => exact absurd hid (hnp d hd1 hadm)
    | false =>
      refine ⟨d, hd1, hid, hadm, ?_⟩
      have := runEvents_decisions_timely strat arrivals h d hd1 hadm
      rw [this, hd2, hd3]
      rfl

/-- Closed witness for `ttl_bound`: with quota 0 and window size 1, a single
request enqueued at time 0 with TTL 2 is woken `false` at time 2 within
horizon 3. -/
theorem ttl_bound_witness :
    ∃ d ∈ (runEvents ⟨0, 1⟩ [⟨0, 1, 0, 2⟩] 3).decisions,
      d.req.id = 1 ∧ d.admitted = false ∧ d.wakeAt ≤ 0 + 2 := by
  have := ttl_bound ⟨0, 1⟩ [⟨0, 1, 0, 2⟩] 3 ⟨0, 1, 0, 2⟩
    (by decide) (by decide) (by decide)
  simpa using this

/-! ### Priority ordering and FIFO fairness -/

theorem reqLE_of_lt {a b : Request} (h : reqLt a b) : reqLE a b := by
  unfold reqLt at h
  unfold reqLE
  omega

theorem reqLE_of_not_lt {a b : Request} (h : ¬ reqLt a b) : reqLE b a := by
  unfold reqLt at h
  unfold reqLE
  omega

theorem reqLE_trans {a b c : Request} (h1 : reqLE a b) (h2 : reqLE b c) : reqLE a c := by
  unfold reqLE at *
  omega

theorem insertEntry_pairwise {e : WaitEntry} :
    ∀ {l : List WaitEntry}, List.Pairwise entryLE l →
      List.Pairwise entryLE (insertEntry e l) := by
  intro l
  induction l with
  | nil => intro _; simp [insertEntry, List.pairwise_singleton]
  | cons y ys ih =>
    intro hp
    rcases List.pairwise_cons.mp hp with ⟨hy, hys⟩
    by_cases hlt : reqLt e.req y.req
    · rw [insertEntry, if_pos hlt]
      refine List.pairwise_cons.mpr ⟨?_, hp⟩
      intro z hz
      rcases List.mem_cons.mp hz with rfl | hz
      · exact reqLE_of_lt hlt
      · exact reqLE_trans (reqLE_of_lt hlt) (hy z hz)
    · rw [insertEntry, if_neg hlt]
      refine List.pairwise_cons.mpr ⟨?_, ih hys⟩
      intro z hz
      rcases mem_insertEntry.mp hz with rfl | hz
      · exact reqLE_of_not_lt hlt
      · exact hy z hz

theorem promote_waiting_sublist (now quota : Nat) :
    ∀ (w : List WaitEntry) (c : Nat), (promote now quota c w).waiting.Sublist w := by
  intro w
  induction w with
  | nil => intro c; simp [promote]
  | cons x rest ih =>
    intro c
    by_cases hq : quota ≤ c
    · simp [promote, hq]
    · by_cases hd : x.deadline ≤ now
      · simpa [promote, hq, hd] using (ih c).trans (List.sublist_cons_self x rest)
      · simpa [promote, hq, hd] using (ih (c + 1)).trans (List.sublist_cons_self x rest)

theorem promote_decisions_req (now quota : Nat) :
    ∀ (w : List WaitEntry) (c : Nat), ∀ d ∈ (promote now quota c w).decisions,
      ∃ e ∈ w, d.req = e.req := by
  intro w
  induction w with
  | nil => intro c d hd; simp [promote] at hd
  | cons x rest ih =>
    intro c d hd
    by_cases hq : quota ≤ c
    · simp [promote, hq] at hd
    · by_cases hdl : x.deadline ≤ now
      · simp only [promote, if_neg hq, if_pos hdl, List.mem_cons] at hd
        rcases hd with rfl | hd
        · exact ⟨x, List.mem_cons_self x rest, rfl⟩
        · obtain ⟨e, he, hr⟩ := ih c d hd
          exact ⟨e, List.mem_cons_of_mem x he, hr⟩
      · simp only [promote, if_neg hq, if_neg hdl, List.mem_cons] at hd
        rcases hd with rfl | hd
        · exact ⟨x, List.mem_cons_self x rest, rfl⟩
        · obtain ⟨e, he, hr⟩ := ih (c + 1) d hd
          exact ⟨e, List.mem_cons_of_mem x he, hr⟩

theorem promote_ordered (now quota : Nat) :
    ∀ (w : List WaitEntry) (c : Nat), List.Pairwise entryLE w →
      List.Pairwise (fun d d' => reqLE d.req d'.req)
        ((promote now quota c w).decisions.filter (fun d => d.admitted)) ∧
      ∀ d ∈ (promote now quota c w).decisions, d.admitted = true →
        ∀ e ∈ (promote now quota c w).waiting, reqLE d.req e.req := by
  intro w
  induction w with
  | nil =>
    intro c _
    constructor
    · simp [promote]
    · intro d hd; simp [promote] at hd
  | cons x rest ih =>
    intro c hp
    rcases List.pairwise_cons.mp hp with ⟨hx, hrest⟩
    by_cases hq : quota ≤ c
    · constructor
      · simp [promote, hq]
      · intro d hd; simp [promote, hq] at hd
    · by_cases hdl : x.deadline ≤ now
      · obtain ⟨ihp, ihd⟩ := ih c hrest
        constructor
        · simpa [promote, hq, hdl] using ihp
        · intro d hd hadm e he
          simp only [promote, if_neg hq, if_pos hdl, List.mem_cons] at hd he
          rcases hd with rfl | hd
          · cases hadm
          · exact ihd d hd hadm e he
      · obtain ⟨ihp, ihd⟩ := ih (c + 1) hrest
        constructor
        · simp only [promote, if_neg hq, if_neg hdl, List.filter_cons_of_pos]
          refine List.pairwise_cons.mpr ⟨?_, ihp⟩
          intro d' hd'
          have hd'mem := List.mem_of_mem_filter hd'
          obtain ⟨e, he, hr⟩ := promote_decisions_req now quota rest (c + 1) d' hd'mem
          rw [hr]
          exact hx e he
        · intro d hd hadm e he
          simp only [promote, if_neg hq, if_neg hdl, List.mem_cons] at hd he
          rcases hd with rfl | hd
          · have hsub := (promote_waiting_sublist now quota rest (c + 1)).subset he
            exact hx e hsub
          · exact ihd d hd hadm e he

theorem expireUpTo_pairwise (t : Nat) {s : QueueState}
    (hp : List.Pairwise entryLE s.waiting) :
    List.Pairwise entryLE (expireUpTo t s).state.waiting :=
  hp.sublist (List.filter_sublist s.waiting)

theorem processBoundaries_pairwise (strat : Strategy) :
    ∀ (n : Nat) {s : QueueState}, List.Pairwise entryLE s.waiting →
      List.Pairwise entryLE (processBoundaries strat n s).state.waiting := by
  intro n
  induction n with
  | zero => intro s hp; simpa [processBoundaries] using hp
  | succ n ih =>
    intro s hp
    simp only [processBoundaries]
    exact ih ((expireUpTo_pairwise _ hp).sublist
      (promote_waiting_sublist _ strat.windowQuota _ 0))

theorem advanceTo_pairwise (strat : Strategy) {s : QueueState} (t : Nat)
    (hp : List.Pairwise entryLE s.waiting) :
    List.Pairwise entryLE (advanceTo strat s t).state.waiting :=
  expireUpTo_pairwise t (processBoundaries_pairwise strat _ hp)

theorem enqueue_pairwise (strat : Strategy) {s : QueueState} (a : Arrival)
    (hp : List.Pairwise entryLE s.waiting) :
    List.Pairwise entryLE (enqueue strat s a).state.waiting := by
  by_cases hlt : (advanceTo strat s a.t).state.admittedCount < strat.windowQuota
  · simpa [enqueue, hlt] using advanceTo_pairwise strat a.t hp
  · simp only [enqueue, if_neg hlt]
    exact insertEntry_pairwise (advanceTo_pairwise strat a.t hp)

theorem runFrom_pairwise (strat : Strategy) :
    ∀ (arrivals : List Arrival) {s : QueueState}, List.Pairwise entryLE s.waiting →
      List.Pairwise entryLE (runFrom strat s arrivals).state.waiting := by
  intro arrivals
  induction arrivals with
  | nil => intro s hp; simpa [runFrom] using hp
  | cons a rest ih =>
    intro s hp
    simp only [runFrom]
    exact ih (enqueue_pairwise strat a hp)

/-- C3: the wait structure of a queue reached by any sequence of `Enqueue`
calls is ordered by (priority ascending, arrival ascending); and on any
promotion pass over such an ordered wait structure, the admitted requests
come out in ascending (priority, arrival) order and every admitted request
precedes (in that order) every request left waiting — i.e. rollovers admit
strictly by priority, FIFO within a priority class. -/
theorem promotion_priority_order (strat : Strategy) (arrivals : List Arrival) (h : Nat) :
    List.Pairwise entryLE (runEvents strat arrivals h).state.waiting ∧
    (∀ (now quota c : Nat) (w : List WaitEntry), List.Pairwise entryLE w →
      List.Pairwise (fun d d' => reqLE d.req d'.req)
        ((promote now quota c w).decisions.filter (fun d => d.admitted)) ∧
      ∀ d ∈ (promote now quota c w).decisions, d.admitted = true →
        ∀ e ∈ (promote now quota c w).waiting, reqLE d.req e.req) := by
  constructor
  · simp only [runEvents]
    exact advanceTo_pairwise strat h
      (runFrom_pairwise strat arrivals (by simp [initState]))
  · intro now quota c w hw
    exact promote_ordered now quota w c hw

/-- Closed witness for `promotion_priority_order`: two waiters of priorities
1 and 5 under quota 1 — the promotion pass admits the priority-1 request and
it precedes the still-waiting priority-5 request in the admission order. -/
theorem promotion_priority_order_witness :
    List.Pairwise entryLE (runEvents ⟨1, 10⟩ [] 0).state.waiting ∧
    (List.Pairwise (fun d d' => reqLE d.req d'.req)
      ((promote 10 1 0 [⟨⟨1, 1, 0⟩, 20⟩, ⟨⟨2, 5, 0⟩, 20⟩]).decisions.filter
        (fun d => d.admitted)) ∧
     ∀ d ∈ (promote 10 1 0 [⟨⟨1, 1, 0⟩, 20⟩, ⟨⟨2, 5, 0⟩, 20⟩]).decisions,
       d.admitted = true →
       ∀ e ∈ (promote 10 1 0 [⟨⟨1, 1, 0⟩, 20⟩, ⟨⟨2, 5, 0⟩, 20⟩]).waiting,
         reqLE d.req e.req) := by
  have hmain := promotion_priority_order ⟨1, 10⟩ [] 0
  exact ⟨hmain.1, hmain.2 10 1 0 [⟨⟨1, 1, 0⟩, 20⟩, ⟨⟨2, 5, 0⟩, 20⟩] (by decide)⟩

end AdmissionQueue

namespace Plugin

/-!
Shallow embedding of `strategy_based_queue_plugin.go`.  The whole body of
`OnRequest` between `queuesMutex.Lock()` and `queuesMutex.Unlock()` runs
under the exclusive lock, so the registry interaction is modelled as a
sequential state transformation.  A `*queue.DelayedPriorityQueue` pointer is
modelled as a numeric instance identifier allocated at creation; the result
of `DelayedPriorityQueue.Enqueue` is abstracted as the boolean `canProceed`
input (the queue package is not in the repository slice), and the call itself
is recorded in the result so that theorems can speak about whether any queue
interaction happened.
-/

/-- Go `queue.Strategy` as built by the plugin: `WindowQuota` (an `int`) and
`WindowSize` (a `time.Duration`, i.e. nanoseconds). -/
structure Strategy where
  windowQuota : Int
  windowSize : Int
deriving DecidableEq, Repr

/-- Go `queueKey`: the registry key, a composite of remedy name and
strategy with structural equality. -/
structure queueKey where
  remedyName : String
  strategy : Strategy
deriving DecidableEq, Repr

/-- The plugin's `queues` map, `map[queueKey]*queue.DelayedPriorityQueue`,
modelled as an association list of key/instance-id pairs, plus the next fresh
instance id. -/
structure RegistryState where
  entries : List (queueKey × Nat)
  nextId : Nat
deriving DecidableEq, Repr

/-- Association-list lookup: the value of the first pair whose key matches. -/
def lookupQueue (entries : List (queueKey × Nat)) (k : queueKey) : Option Nat :=
  (entries.find? (fun p => decide (p.1 = k))).map (fun p => p.2)

/-- Go `OnRequest` lines 91-104: under the exclusive lock, look the key up;
on a miss construct a fresh queue (`NewDelayedPriorityQueue`) and publish it
in the map. -/
def getOrCreateQueue (s : RegistryState) (k : queueKey) : RegistryState × Nat :=
  match lookupQueue s.entries k with
  | some q => (s, q)
  | none => (⟨s.entries ++ [(k, s.nextId)], s.nextId + 1⟩, s.nextId)

/-- Thread a list of lookups through the registry, starting from `s`. -/
def runRegistryFrom (s : RegistryState) (ks : List queueKey) : RegistryState :=
  ks.foldl (fun s k => (getOrCreateQueue s k).1) s

/-- The registry state after a sequence of `OnRequest` keys, starting from
the empty map the plugin is constructed with. -/
def runRegistry (ks : List queueKey) : RegistryState :=
  runRegistryFrom ⟨[], 0⟩ ks

/-- Optional association-list lookup (distinguishes absent from present). -/
def lookupKey {α : Type} (l : List (String × α)) (k : String) : Option α :=
  (l.find? (fun p => decide (p.1 = k))).map (fun p => p.2)

/-- Go map-index semantics: `m[k]` yields the zero value when `k` is absent. -/
def mapGetD {α : Type} (l : List (String × α)) (k : String) (d : α) : α :=
  match lookupKey l k with
  | some v => v
  | none => d

/-- Go `sharedConfig` `Group`: a priority group with its `Priority` field. -/
structure Group where
  priority : Int
deriving DecidableEq, Repr

/-- Go `sharedConfig` `GroupBy`: names the header that selects the group. -/
structure GroupBy where
  headerName : String
deriving DecidableEq, Repr

/-- Go `sharedConfig` `Prioritization`: the header selector and the
`map[string]Group` table. -/
structure Prioritization where
  groupBy : GroupBy
  groups : List (String × Group)
deriving DecidableEq, Repr

/-- Go `sharedConfig.StrategyBasedQueueConfig`. -/
structure StrategyBasedQueueConfig where
  allowedRequestCount : Int
  windowSizeInSeconds : Int
  ttlSeconds : Int
  responseStatusCode : Int
  prioritization : Option Prioritization
deriving DecidableEq, Repr

/-- Go `messages.OnRequest` (the fields the plugin reads: `ID`, `Headers`). -/
structure OnRequestMsg where
  id : String
  headers : List (String × String)
deriving DecidableEq, Repr

/-- Go `config.ScopedRemedy` down to the fields the plugin reads:
`Remedy.Name` and `Remedy.Config.StrategyBasedQueue` (an optional config). -/
structure ScopedRemedy where
  remedyName : String
  strategyBasedQueue : Option StrategyBasedQueueConfig
deriving DecidableEq, Repr

/-- Go `extractPriority`: with no prioritization configured the priority is
0; otherwise the designated header's value (Go map lookup: "" when the header
is absent) is mapped through the `Groups` table (Go map lookup: zero-value
`Group{Priority: 0}` when the value is absent) and that group's priority is
returned. -/
def extractPriority (onReq : OnRequestMsg) (remedyConfig : StrategyBasedQueueConfig) : Int :=
  match remedyConfig.prioritization with
  | none => 0
  | some p =>
    let headerValue := mapGetD onReq.headers p.groupBy.headerName ""
    let prioritization := mapGetD p.groups headerValue ⟨0⟩
    prioritization.priority

/-- Go `actions.ReqLunarAction` as the plugin produces it: either the no-op
pass-through or an early response. -/
inductive ReqLunarAction where
  | noOp
  | earlyResponse (status : Int) (body : String) (contentType : String)
deriving DecidableEq, Repr

/-- Modelled from the spec: `plainTextTooManyRequestsAction` is defined in a
sibling file of the `remedies` package that is not in the repository slice;
per the spec it synthesizes a rejection response carrying the configurable
HTTP status code and a plain-text body. -/
def plainTextTooManyRequestsAction (status : Int) : ReqLunarAction :=
  .earlyResponse status "Too Many Requests" "text/plain"

/-- Go `ErrMissingConfig` (declared in a sibling file of the `remedies`
package). -/
inductive PluginError where
  | errMissingConfig
deriving DecidableEq, Repr

/-- One increment of the `lunar_remedies.strategy_based_queue.requests`
counter with its attributes (Go `incrementRequestsMetric`). -/
structure MetricInc where
  remedy : String
  priority : Int
  ttlPassed : Bool
deriving DecidableEq, Repr

/-- Go `incrementRequestsMetric` lines 202-216: add 1 to the requests
counter with the ttl_passed, remedy and priority attributes. -/
def incrementRequestsMetric (remedyName : String) (priority : Int) (ttlPassed : Bool) :
    MetricInc :=
  ⟨remedyName, priority, ttlPassed⟩

/-- A recorded call to `DelayedPriorityQueue.Enqueue`: the queue instance,
the request id and priority, and the TTL in nanoseconds. -/
structure EnqueueCall where
  queueId : Nat
  requestID : String
  priority : Int
  ttlNanos : Int
deriving DecidableEq, Repr

/-- Everything observable about one `OnRequest` call: the action and error
returned to the pipeline, the registry state afterwards, the metric
increments emitted, and the `Enqueue` calls performed. -/
structure OnRequestResult where
  action : ReqLunarAction
  error : Option PluginError
  registry : RegistryState
  metricIncs : List MetricInc
  enqueues : List EnqueueCall
deriving DecidableEq, Repr

/-- Go `OnRequest` lines 68-135.  `canProceed` abstracts the boolean returned
by `DelayedPriorityQueue.Enqueue` (the queue implementation is outside the
repository slice); everything else follows the Go control flow: missing
config returns the no-op action with `ErrMissingConfig` before any queue
interaction; otherwise the strategy and key are built, the queue is resolved
or created under the lock, the priority extracted, `Enqueue` issued, the
requests counter incremented once with `ttlPassed = !canProceed`, and the
action is the no-op on admission or the plain-text early response carrying
the configured status code on rejection. -/
def OnRequest (reg : RegistryState) (onReq : OnRequestMsg) (scopedRemedy : ScopedRemedy)
    (canProceed : Bool) : OnRequestResult :=
  match scopedRemedy.strategyBasedQueue with
  | none => ⟨.noOp, some .errMissingConfig, reg, [], []⟩
  | some remedyConfig =>
    let strategy : Strategy :=
      ⟨remedyConfig.allowedRequestCount, remedyConfig.windowSizeInSeconds * 1000000000⟩
    let key : queueKey := ⟨scopedRemedy.remedyName, strategy⟩
    let res := getOrCreateQueue reg key
    let priority := extractPriority onReq remedyConfig
    let enq : EnqueueCall :=
      ⟨res.2, onReq.id, priority, remedyConfig.ttlSeconds * 1000000000⟩
    if canProceed then
      ⟨.noOp, none, res.1,
        [incrementRequestsMetric scopedRemedy.remedyName priority false], [enq]⟩
    else
      ⟨plainTextTooManyRequestsAction remedyConfig.responseStatusCode, none, res.1,
        [incrementRequestsMetric scopedRemedy.remedyName priority true], [enq]⟩

/-! ### Registry: at most one queue per key, created once, stable -/

theorem lookupQueue_append_some {l l' : List (queueKey × Nat)} {k : queueKey} {q : Nat}
    (h : lookupQueue l k = some q) : lookupQueue (l ++ l') k = some q := by
  induction l with
  | nil => simp [lookupQueue] at h
  | cons p rest ih =>
    by_cases hp : p.1 = k
    · simp only [lookupQueue, List.cons_append] at h ⊢
      rw [List.find?_cons_of_pos _ (by simp [hp])] at h ⊢
      exact h
    · simp only [lookupQueue, List.cons_append] at h ⊢
      rw [List.find?_cons_of_neg _ (by simp [hp])] at h ⊢
      exact ih h

theorem lookupQueue_append_none {l l' : List (queueKey × Nat)} {k : queueKey}
    (h : lookupQueue l k = none) : lookupQueue (l ++ l') k = lookupQueue l' k := by
  induction l with
  | nil => simp
  | cons p rest ih =>
    by_cases hp : p.1 = k
    · simp only [lookupQueue] at h
      rw [List.find?_cons_of_pos _ (by simp [hp])] at h
      simp at h
    · simp only [lookupQueue, List.cons_append] at h ⊢
      rw [List.find?_cons_of_neg _ (by simp [hp])] at h ⊢
      exact ih h

theorem lookupQueue_not_mem {l : List (queueKey × Nat)} {k : queueKey}
    (h : lookupQueue l k = none) : k ∉ l.map Prod.fst := by
  intro hmem
  obtain ⟨p, hp, hfst⟩ := List.mem_map.mp hmem
  have hfind : l.find? (fun p => decide (p.1 = k)) = none := by
    cases hf : l.find? (fun p => decide (p.1 = k)) with
    | none => rfl
    | some v => simp [lookupQueue, hf] at h
  have := List.find?_eq_none.mp hfind p hp
  simp [hfst] at this

theorem getOrCreateQueue_lookup_self (s : RegistryState) (k : queueKey) :
    lookupQueue ((getOrCreateQueue s k).1).entries k = some ((getOrCreateQueue s k).2) := by
  cases hl : lookupQueue s.entries k with
  | some q => simp [getOrCreateQueue, hl]
  | none =>
    simp only [getOrCreateQueue, hl]
    rw [lookupQueue_append_none hl]
    simp [lookupQueue, List.find?]

theorem getOrCreateQueue_preserves_lookup {s : RegistryState} {k : queueKey} {q : Nat}
    (k' : queueKey) (h : lookupQueue s.entries k = some q) :
    lookupQueue ((getOrCreateQueue s k').1).entries k = some q := by
  cases hl : lookupQueue s.entries k' with
  | some q' => simpa [getOrCreateQueue, hl] using h
  | none =>
    simp only [getOrCreateQueue, hl]
    exact lookupQueue_append_some h

theorem runRegistryFrom_preserves_lookup {k : queueKey} {q : Nat} :
    ∀ (ks : List queueKey) (s : RegistryState), lookupQueue s.entries k = some q →
      lookupQueue (runRegistryFrom s ks).entries k = some q := by
  intro ks
  induction ks with
  | nil => intro s h; simpa [runRegistryFrom] using h
  | cons k' rest ih =>
    intro s h
    simp only [runRegistryFrom, List.foldl_cons]
    exact ih _ (getOrCreateQueue_preserves_lookup k' h)

theorem getOrCreateQueue_of_some {s : RegistryState} {k : queueKey} {q : Nat}
    (h : lookupQueue s.entries k = some q) : getOrCreateQueue s k = (s, q) := by
  simp [getOrCreateQueue, h]

theorem getOrCreateQueue_nodup {s : RegistryState} (k : queueKey)
    (h : (s.entries.map Prod.fst).Nodup) :
    (((getOrCreateQueue s k).1).entries.map Prod.fst).Nodup := by
  cases hl : lookupQueue s.entries k with
  | some q => simpa [getOrCreateQueue, hl] using h
  | none =>
    simp only [getOrCreateQueue, hl, List.map_append, List.map_cons, List.map_nil]
    rw [List.nodup_append]
    refine ⟨h, List.nodup_singleton _, ?_⟩
    intro x hx hk
    rcases List.mem_singleton.mp hk with rfl
    exact lookupQueue_not_mem hl hx

theorem runRegistryFrom_nodup :
    ∀ (ks : List queueKey) (s : RegistryState), (s.entries.map Prod.fst).Nodup →
      ((runRegistryFrom s ks).entries.map Prod.fst).Nodup := by
  intro ks
  induction ks with
  | nil => intro s h; simpa [runRegistryFrom] using h
  | cons k rest ih =>
    intro s h
    simp only [runRegistryFrom, List.foldl_cons]
    exact ih _ (getOrCreateQueue_nodup k h)

theorem getOrCreateQueue_entries_grow (s : RegistryState) (k : queueKey) :
    ∃ suffix, ((getOrCreateQueue s k).1).entries = s.entries ++ suffix := by
  cases hl : lookupQueue s.entries k with
  | some q => exact ⟨[], by simp [getOrCreateQueue, hl]⟩
  | none => exact ⟨[(k, s.nextId)], by simp [getOrCreateQueue, hl]⟩

theorem runRegistryFrom_entries_grow :
    ∀ (ks : List queueKey) (s : RegistryState),
      ∃ suffix, (runRegistryFrom s ks).entries = s.entries ++ suffix := by
  intro ks
  induction ks with
  | nil => intro s; exact ⟨[], by simp [runRegistryFrom]⟩
  | cons k rest ih =>
    intro s
    obtain ⟨suf1, h1⟩ := getOrCreateQueue_entries_grow s k
    obtain ⟨suf2, h2⟩ := ih ((getOrCreateQueue s k).1)
    exact ⟨suf1 ++ suf2,
      by simp only [runRegistryFrom, List.foldl_cons] at h2 ⊢; rw [h2, h1, List.append_assoc]⟩

theorem runRegistryFrom_append (s : RegistryState) (ks ks' : List queueKey) :
    runRegistryFrom s (ks ++ ks') = runRegistryFrom (runRegistryFrom s ks) ks' := by
  simp [runRegistryFrom, List.foldl_append]

/-- C4: the plugin's registry holds at most one queue per distinct
`(remedyName, strategy)` key.  For every sequence of `OnRequest` keys: the
map's keys are duplicate-free; processing further requests only appends
entries (an existing entry is never replaced or removed); and any request
whose key already occurred resolves to the very queue instance created by the
first request with that key. -/
theorem registry_one_queue_per_key (ks ks' ks₁ ks₂ : List queueKey) (k : queueKey) :
    ((runRegistry ks).entries.map Prod.fst).Nodup ∧
    (∃ suffix, (runRegistry (ks ++ ks')).entries = (runRegistry ks).entries ++ suffix) ∧
    (getOrCreateQueue (runRegistry (ks₁ ++ [k] ++ ks₂)) k).2 =
      (getOrCreateQueue (runRegistry ks₁) k).2 := by
  refine ⟨?_, ?_, ?_⟩
  · exact runRegistryFrom_nodup ks ⟨[], 0⟩ (by simp)
  · rw [runRegistry, runRegistry, runRegistryFrom_append]
    exact runRegistryFrom_entries_grow ks' _
  · have hstep : runRegistry (ks₁ ++ [k] ++ ks₂) =
        runRegistryFrom ((getOrCreateQueue (runRegistry ks₁) k).1) ks₂ := by
      rw [runRegistry, runRegistryFrom_append, runRegistryFrom_append]
      rfl
    have hself := getOrCreateQueue_lookup_self (runRegistry ks₁) k
    have hpres := runRegistryFrom_preserves_lookup ks₂ _ hself
    rw [hstep, getOrCreateQueue_of_some hpres]

/-- The kind of lock taken on the plugin's `queuesMutex` (`sync.RWMutex`). -/
inductive LockMode where
  | sharedRead
  | exclusive
deriving DecidableEq, Repr

/-- Go `OnRequest` line 91: the queue lookup-or-create section calls
`queuesMutex.Lock()`, the exclusive write lock, on hits and misses alike. -/
def onRequestQueueLookupLock : LockMode := .exclusive

/-- Go `observeRequestsInQueue` line 185: the metrics observer calls
`queuesMutex.RLock()`, the shared read lock. -/
def observeRequestsInQueueLock : LockMode := .sharedRead

/-! ### OnRequest behaviour -/

theorem mapGetD_some {α : Type} {l : List (String × α)} {k : String} {d v : α}
    (h : lookupKey l k = some v) : mapGetD l k d = v := by
  simp [mapGetD, h]

theorem mapGetD_none {α : Type} {l : List (String × α)} {k : String} {d : α}
    (h : lookupKey l k = none) : mapGetD l k d = d := by
  simp [mapGetD, h]

/-- C5: whenever `OnRequest` reaches an `Enqueue` decision (the config is
present), the requests counter is incremented exactly once, synchronously
with the decision, labeled with the remedy name, the resolved priority, and
the `ttl_passed` flag — `false` when `Enqueue` admitted the request and
`true` when it rejected it. -/
theorem requests_counter_once (reg : RegistryState) (onReq : OnRequestMsg)
    (sr : ScopedRemedy) (canProceed : Bool) (c : StrategyBasedQueueConfig)
    (hc : sr.strategyBasedQueue = some c) :
    (OnRequest reg onReq sr canProceed).metricIncs =
      [incrementRequestsMetric sr.remedyName (extractPriority onReq c) (!canProceed)] := by
  cases canProceed <;> simp [OnRequest, hc, incrementRequestsMetric]

/-- Closed witness for `requests_counter_once`. -/
theorem requests_counter_once_witness :
    (OnRequest ⟨[], 0⟩ ⟨"r1", []⟩ ⟨"rem", some ⟨1, 1, 1, 429, none⟩⟩ true).metricIncs =
      [incrementRequestsMetric "rem"
        (extractPriority ⟨"r1", []⟩ ⟨1, 1, 1, 429, none⟩) (!true)] :=
  requests_counter_once ⟨[], 0⟩ ⟨"r1", []⟩ ⟨"rem", some ⟨1, 1, 1, 429, none⟩⟩ true
    ⟨1, 1, 1, 429, none⟩ rfl

/-- C6: with a present config, `Enqueue` returning `true` makes `OnRequest`
return the no-op action with no error (the request passes through), and
`Enqueue` returning `false` makes it return the early plain-text rejection
carrying the configured HTTP status code, with no error. -/
theorem onRequest_outcome_action (reg : RegistryState) (onReq : OnRequestMsg)
    (sr : ScopedRemedy) (canProceed : Bool) (c : StrategyBasedQueueConfig)
    (hc : sr.strategyBasedQueue = some c) :
    (canProceed = true → (OnRequest reg onReq sr canProceed).action = .noOp ∧
      (OnRequest reg onReq sr canProceed).error = none) ∧
    (canProceed = false → (OnRequest reg onReq sr canProceed).action =
        .earlyResponse c.responseStatusCode "Too Many Requests" "text/plain" ∧
      (OnRequest reg onReq sr canProceed).error = none) := by
  cases canProceed <;>
    simp [OnRequest, hc, plainTextTooManyRequestsAction]

/-- Closed witness for `onRequest_outcome_action`. -/
theorem onRequest_outcome_action_witness :
    (OnRequest ⟨[], 0⟩ ⟨"r1", []⟩ ⟨"rem", some ⟨1, 1, 1, 429, none⟩⟩ false).action =
        .earlyResponse 429 "Too Many Requests" "text/plain" ∧
      (OnRequest ⟨[], 0⟩ ⟨"r1", []⟩ ⟨"rem", some ⟨1, 1, 1, 429, none⟩⟩ false).error = none :=
  (onRequest_outcome_action ⟨[], 0⟩ ⟨"r1", []⟩ ⟨"rem", some ⟨1, 1, 1, 429, none⟩⟩ false
    ⟨1, 1, 1, 429, none⟩ rfl).2 rfl

/-- C8: when the remedy's `StrategyBasedQueue` config is absent, `OnRequest`
returns the no-op action together with `ErrMissingConfig` and performs no
queue interaction whatsoever: the registry is untouched (nothing created or
looked up), no `Enqueue` is issued, and no counter is incremented. -/
theorem missing_config_no_queue_interaction (reg : RegistryState) (onReq : OnRequestMsg)
    (sr : ScopedRemedy) (canProceed : Bool) (hc : sr.strategyBasedQueue = none) :
    (OnRequest reg onReq sr canProceed).action = .noOp ∧
    (OnRequest reg onReq sr canProceed).error = some .errMissingConfig ∧
    (OnRequest reg onReq sr canProceed).registry = reg ∧
    (OnRequest reg onReq sr canProceed).metricIncs = [] ∧
    (OnRequest reg onReq sr canProceed).enqueues = [] := by
  simp [OnRequest, hc]

/-- Closed witness for `missing_config_no_queue_interaction`. -/
theorem missing_config_no_queue_interaction_witness :
    (OnRequest ⟨[], 0⟩ ⟨"r1", []⟩ ⟨"rem", none⟩ true).action = .noOp ∧
    (OnRequest ⟨[], 0⟩ ⟨"r1", []⟩ ⟨"rem", none⟩ true).error = some .errMissingConfig ∧
    (OnRequest ⟨[], 0⟩ ⟨"r1", []⟩ ⟨"rem", none⟩ true).registry = ⟨[], 0⟩ ∧
    (OnRequest ⟨[], 0⟩ ⟨"r1", []⟩ ⟨"rem", none⟩ true).metricIncs = [] ∧
    (OnRequest ⟨[], 0⟩ ⟨"r1", []⟩ ⟨"rem", none⟩ true).enqueues = [] :=
  missing_config_no_queue_interaction ⟨[], 0⟩ ⟨"r1", []⟩ ⟨"rem", none⟩ true rfl

/-- C7: the resolved priority is 0 when no prioritization is configured;
otherwise the designated header's value is mapped through the group table,
a present mapping yielding that group's priority and an absent mapping
yielding the default priority 0. -/
theorem extractPriority_resolution (onReq : OnRequestMsg)
    (cfg : StrategyBasedQueueConfig) :
    (cfg.prioritization = none → extractPriority onReq cfg = 0) ∧
    (∀ p g, cfg.prioritization = some p →
      lookupKey p.groups (mapGetD onReq.headers p.groupBy.headerName "") = some g →
      extractPriority onReq cfg = g.priority) ∧
    (∀ p, cfg.prioritization = some p →
      lookupKey p.groups (mapGetD onReq.headers p.groupBy.headerName "") = none →
      extractPriority onReq cfg = 0) := by
  refine ⟨?_, ?_, ?_⟩
  · intro h; simp [extractPriority, h]
  · intro p g hp hg
    simp only [extractPriority, hp]
    rw [mapGetD_some hg]
  · intro p hp hg
    simp only [extractPriority, hp]
    rw [mapGetD_none hg]

/-- Closed witness for `extractPriority_resolution`. -/
theorem extractPriority_resolution_witness :
    extractPriority ⟨"r1", [("x-tier", "gold")]⟩
      ⟨1, 1, 1, 429, some ⟨⟨"x-tier"⟩, [("gold", ⟨3⟩)]⟩⟩ = (3 : Int) :=
  (extractPriority_resolution ⟨"r1", [("x-tier", "gold")]⟩
      ⟨1, 1, 1, 429, some ⟨⟨"x-tier"⟩, [("gold", ⟨3⟩)]⟩⟩).2.1
    ⟨⟨"x-tier"⟩, [("gold", ⟨3⟩)]⟩ ⟨3⟩ rfl rfl

/-- C10: with prioritization configured, a request without the designated
header resolves exactly like a request whose header value is the empty
string: the priority is the group table's entry for `""` under Go zero-value
map semantics (so it can be nonzero when a `""` group is configured), and
the engine cannot distinguish the two cases. -/
theorem header_absent_like_empty (onReq : OnRequestMsg)
    (cfg : StrategyBasedQueueConfig) (p : Prioritization)
    (hp : cfg.prioritization = some p)
    (habs : lookupKey onReq.headers p.groupBy.headerName = none) :
    extractPriority onReq cfg = (mapGetD p.groups "" ⟨0⟩).priority ∧
    ∀ onReq' : OnRequestMsg,
      lookupKey onReq'.headers p.groupBy.headerName = some "" →
      extractPriority onReq' cfg = extractPriority onReq cfg := by
  have hval : mapGetD onReq.headers p.groupBy.headerName "" = "" := by
    simp [mapGetD, habs]
  constructor
  · simp [extractPriority, hp, hval]
  · intro onReq' h'
    have hval' : mapGetD onReq'.headers p.groupBy.headerName "" = "" := by
      simp [mapGetD, h']
    simp [extractPriority, hp, hval, hval']

/-- Closed witness for `header_absent_like_empty`: a `""` group with priority
7 applies both to a request without the header and to one carrying the
header with an empty value. -/
theorem header_absent_like_empty_witness :
    extractPriority ⟨"r1", []⟩ ⟨1, 1, 1, 429, some ⟨⟨"x-tier"⟩, [("", ⟨7⟩)]⟩⟩ =
        (mapGetD [("", (⟨7⟩ : Group))] "" ⟨0⟩).priority ∧
      extractPriority ⟨"r2", [("x-tier", "")]⟩
          ⟨1, 1, 1, 429, some ⟨⟨"x-tier"⟩, [("", ⟨7⟩)]⟩⟩ =
        extractPriority ⟨"r1", []⟩ ⟨1, 1, 1, 429, some ⟨⟨"x-tier"⟩, [("", ⟨7⟩)]⟩⟩ := by
  have h := header_absent_like_empty ⟨"r1", []⟩
    ⟨1, 1, 1, 429, some ⟨⟨"x-tier"⟩, [("", ⟨7⟩)]⟩⟩ ⟨⟨"x-tier"⟩, [("", ⟨7⟩)]⟩ rfl rfl
  exact ⟨h.1, h.2 ⟨"r2", [("x-tier", "")]⟩ rfl⟩

/-- C9 counterexample: the claim says the lookup path for an existing queue
does not serialize readers behind an exclusive lock, but `OnRequest` takes
`queuesMutex.Lock()` — the exclusive write lock — around the lookup, hit or
miss. -/
theorem onRequest_lookup_lock_exclusive :
    onRequestQueueLookupLock = LockMode.exclusive := rfl

/-- C9 (amended): queue lookups in `OnRequest` acquire the exclusive write
lock (serializing concurrent callers, even on hits); only the metrics
observation path `observeRequestsInQueue` takes the shared read lock. -/
theorem lock_discipline :
    onRequestQueueLookupLock = LockMode.exclusive ∧
    observeRequestsInQueueLock = LockMode.sharedRead := ⟨rfl, rfl⟩

end Plugin
